import Mathlib

/-!
Shallow embedding of the payload-acquisition subsystem of the installer
(source: src/unnamed/part_001): the self-extraction trailer locator
(`extractSelf`), the in-memory tar unpacker loop (`untarGzToMemory`), and the
concurrent chunked downloader (`DownloadFileByConcurrent` with its helpers
`calculateChunks`, `downloadChunk`, `mergeChunks`).

Files are modelled as lists of byte values (`List Nat`, each entry intended
to be `< 256`; the Go code reads `[]byte`).  Go `int64`/`uint64` quantities
are modelled as `Nat`, with the one signed subtraction of the locator
(`archiveEndOffset - int64(archiveLen)`) carried out in `Int` together with
the `uint64 -> int64` cast.
-/

namespace ExeInstaller

/-! ## Trailer locator (`extractSelf`, src/unnamed/part_001 lines 506-587) -/

/-- The 8-byte magic marker `"SFXMAGIC"` (`magicTrailer` constant in the
source), as byte values. -/
def magicTrailer : List Nat := [83, 70, 88, 77, 65, 71, 73, 67]

/-- `trailerSize = 8 + 8`: length field plus magic. -/
def trailerSize : Nat := 16

/-- `searchLimit = 64 * 1024`: the locator reads at most this many bytes from
the end of the file. -/
def searchLimit : Nat := 64 * 1024

/-- `matchAt l pat i` holds when `pat` occurs in `l` starting at index `i`
(the match predicate underlying Go `bytes.LastIndex`). -/
def matchAt (l pat : List Nat) (i : Nat) : Bool :=
  decide ((l.drop i).take pat.length = pat)

/-- Scan indices `i, i-1, ..., 0` for the topmost match of `pat` in `l`. -/
def lastIndexAux (l pat : List Nat) : Nat → Option Nat
  | 0 => if matchAt l pat 0 then some 0 else none
  | i + 1 => if matchAt l pat (i + 1) then some (i + 1) else lastIndexAux l pat i

/-- Go `bytes.LastIndex buf pat`: index of the last occurrence of `pat`
in `l`, or `none` (Go returns `-1`). -/
def lastIndexOf (l pat : List Nat) : Option Nat :=
  if pat.length ≤ l.length then lastIndexAux l pat (l.length - pat.length) else none

/-- Little-endian byte encoding of `n` on `k` bytes (the trailer's length
field as written by the packaging step; spec section 6 external trailer
format `[8-byte archiveLength][8-byte magic]`, little-endian). -/
def leWrite : Nat → Nat → List Nat
  | _, 0 => []
  | n, k + 1 => n % 256 :: leWrite (n / 256) k

/-- Little-endian decoding of a byte list (each entry taken mod 256, since
Go bytes are `uint8`). -/
def leDecode : List Nat → Nat
  | [] => 0
  | b :: rest => b % 256 + 256 * leDecode rest

/-- Go `binary.LittleEndian.Uint64`: decode the first 8 bytes. -/
def leUint64 (l : List Nat) : Nat := leDecode (l.take 8)

/-- `readSize` of `extractSelf`: `min searchLimit fileSize`. -/
def readSizeOf (fileSize : Nat) : Nat := min searchLimit fileSize

/-- `startOffset` of `extractSelf`: `fileSize - readSize`. -/
def startOffsetOf (fileSize : Nat) : Nat := fileSize - readSizeOf fileSize

/-- The buffer `buf` that `extractSelf` reads: the last
`min searchLimit fileSize` bytes of the file. -/
def tailWindow (file : List Nat) : List Nat := file.drop (startOffsetOf file.length)

/-- The tail of `extractSelf` after the magic was found at window index
`idx ≥ 8`: decode the length field at `idx - 8`, compute absolute offsets,
and read the archive.  The `uint64 -> int64` cast of `archiveLen` and the
signed subtraction are modelled in `Int`; `io.ReadFull` of `archiveLen`
bytes fails on a short read. -/
def extractAt (file : List Nat) (idx : Nat) : Except String (List Nat) :=
  let lenStart := idx - 8
  let archiveLen := leUint64 ((tailWindow file).drop lenStart)
  let archiveEndOffset := startOffsetOf file.length + lenStart
  let lenSigned : Int :=
    if archiveLen < 2 ^ 63 then (archiveLen : Int) else (archiveLen : Int) - 2 ^ 64
  let archiveStartOffset : Int := (archiveEndOffset : Int) - lenSigned
  if archiveStartOffset < 0 then .error "invalid archive start offset"
  else if archiveStartOffset.toNat + archiveLen ≤ file.length then
    .ok ((file.drop archiveStartOffset.toNat).take archiveLen)
  else .error "short read (truncated archive)"

/-- `extractSelf` (src/unnamed/part_001 lines 506-587) on the byte contents
of the running executable: reject files shorter than the trailer, read the
last `min (64 KiB) fileSize` bytes, search backward for the last occurrence
of the magic, require 8 bytes of length field before it, then decode offsets
and read the archive (`extractAt`). -/
def extractSelf (file : List Nat) : Except String (List Nat) :=
  if file.length < trailerSize then .error "file too small"
  else
    match lastIndexOf (tailWindow file) magicTrailer with
    | none => .error "magic mismatch (signature not found)"
    | some idx =>
      if idx < 8 then .error "magic found but header truncated"
      else extractAt file idx

/-- The trailer format of spec section 6, used to build a self-extracting
image: `[base][archive A][8-byte LE length of A][8-byte magic]` followed by
`junk` trailing bytes (a code signature or similar). -/
def mkSfx (base A junk : List Nat) : List Nat :=
  base ++ A ++ leWrite A.length 8 ++ magicTrailer ++ junk

/-! ## Archive unpacking (`untarGzToMemory`, src/unnamed/part_001 lines 402-442)

The gzip/tar decoding itself is Go standard-library code; the repository's
loop is driven by the sequence of results of `tr.Next()` and of the body
copies.  That sequence is modelled as a list of `TarEvent`s: the end of the
list is `io.EOF`, `corrupt` is any other `tr.Next()` error (including a bad
gzip header), and a regular entry whose body copy fails carries `none`. -/

/-- `inMemoryFile` of the source.  `Data` is `none` for the `nil` data of a
directory entry, `some` bytes for a materialized regular file. -/
structure inMemoryFile where
  Name : String
  Mode : Nat
  Data : Option (List Nat)
deriving DecidableEq, Repr

/-- One result of `tr.Next()` (plus the body copy for regular entries). -/
inductive TarEvent where
  /-- A regular-file header (`tar.TypeReg`); `body = none` models a failing
  `io.Copy` of the entry body. -/
  | reg (name : String) (mode : Nat) (body : Option (List Nat))
  /-- A directory header (`tar.TypeDir`). -/
  | dir (name : String) (mode : Nat)
  /-- Any other typeflag (symlink, device, ...). -/
  | other
  /-- A non-EOF decode error from `tr.Next()`. -/
  | corrupt
deriving DecidableEq, Repr

/-- The loop of `untarGzToMemory`: regular files are materialized with their
stored name and mode, directories get a trailing `/` and no data, other
entry kinds are skipped, end of stream returns the accumulated list, and a
decode error or a failing body copy aborts with an error. -/
def untarGzToMemory : List TarEvent → Except String (List inMemoryFile)
  | [] => .ok []
  | .reg name mode body :: rest =>
    match body with
    | none => .error "copy entry body failed"
    | some data => (untarGzToMemory rest).map (⟨name, mode, some data⟩ :: ·)
  | .dir name mode :: rest =>
    (untarGzToMemory rest).map (⟨name ++ "/", mode, none⟩ :: ·)
  | .other :: rest => untarGzToMemory rest
  | .corrupt :: _ => .error "tar decode error"

/-- Spec-side description of what one entry contributes (claim C9's wording):
regular files unchanged with stored mode, directories with a trailing
separator and no data, everything else skipped. -/
def entryResult : TarEvent → Option inMemoryFile
  | .reg name mode (some data) => some ⟨name, mode, some data⟩
  | .dir name mode => some ⟨name ++ "/", mode, none⟩
  | _ => none

/-- An event that does not abort the unpack. -/
def tarEventOk : TarEvent → Bool
  | .corrupt => false
  | .reg _ _ none => false
  | _ => true

/-! ## Concurrent chunked downloader (src/unnamed/part_001 lines 740-1061) -/

/-- `chunkInfo` of the source: inclusive byte range of one chunk
(field `end` of the Go struct is `endPos` here, `end` being a Lean keyword). -/
structure chunkInfo where
  start : Nat
  endPos : Nat
deriving DecidableEq, Repr

/-- The loop of `calculateChunks`, with an explicit fuel bound on the number
of iterations.  The Go loop `for start := 0; start < fileSize; start +=
chunkSize` has no fuel and diverges when `chunkSize = 0`; every caller
guarantees `chunkSize ≥ 1`, and then `fuel = fileSize` iterations always
suffice, so on all reachable inputs this equals the Go loop. -/
def calcChunksFuel : Nat → Nat → Nat → Nat → List chunkInfo
  | 0, _, _, _ => []
  | fuel + 1, fileSize, chunkSize, start =>
    if start < fileSize then
      ⟨start, if start + chunkSize - 1 ≥ fileSize then fileSize - 1
              else start + chunkSize - 1⟩ ::
        calcChunksFuel fuel fileSize chunkSize (start + chunkSize)
    else []

/-- `calculateChunks` (src/unnamed/part_001 lines 984-994): slide a window
of `chunkSize` over `[0, fileSize)`, clamping the last chunk's inclusive
`end` to `fileSize - 1`. -/
def calculateChunks (fileSize chunkSize : Nat) : List chunkInfo :=
  calcChunksFuel fileSize fileSize chunkSize 0

/-- The chunk-size computation of `DownloadFileByConcurrent` (lines
776-787): `chunkSize = fileSize / num_workers`, incremented when the
division has a remainder, forced to at least 1. -/
def chunkSizeOf (fileSize numWorkers : Nat) : Nat :=
  let c := fileSize / numWorkers
  let c := if fileSize % numWorkers ≠ 0 then c + 1 else c
  if c ≤ 0 then 1 else c

/-- The chunk plan computed by `DownloadFileByConcurrent`. -/
def downloadPlan (fileSize numWorkers : Nat) : List chunkInfo :=
  calculateChunks fileSize (chunkSizeOf fileSize numWorkers)

/-- `actualWorkers` of `DownloadFileByConcurrent` (lines 789-794): the
requested worker count, lowered to the chunk count when it exceeds it; this
is the capacity of the semaphore `sem` (line 820), hence the maximum number
of simultaneously active chunk fetches. -/
def actualWorkersOf (fileSize numWorkers : Nat) : Nat :=
  if numWorkers > (downloadPlan fileSize numWorkers).length
  then (downloadPlan fileSize numWorkers).length
  else numWorkers

/-- Byte `b` lies in the inclusive range of chunk `c`. -/
def covers (b : Nat) (c : chunkInfo) : Bool :=
  decide (c.start ≤ b ∧ b ≤ c.endPos)

/-- The bytes of the source resource that chunk `c` denotes (what a
successful ranged GET `bytes=start-end` returns): the slice
`[c.start, c.endPos]` of the resource. -/
def chunkData (orig : List Nat) (c : chunkInfo) : List Nat :=
  (orig.drop c.start).take (c.endPos + 1 - c.start)

/-- `mergeChunks` (src/unnamed/part_001 lines 1041-1061) on the contents of
the chunk temp files: each temp file is rewound and appended, in list
order, to the destination file. -/
def mergeChunks (tempFiles : List (List Nat)) : List Nat :=
  tempFiles.foldl (fun acc f => acc ++ f) []

/-! ### `downloadChunk` (src/unnamed/part_001 lines 997-1038)

One chunk fetch with up to 3 attempts.  The environment (network) decides
each attempt's outcome; the function below replays the Go control flow on a
list of exactly three prescribed outcomes (`rest = []` is the Go test
`retry == 2`).  The temp file is append-only: the code never truncates or
seeks it between attempts, so a failing copy's bytes stay in the file. -/

/-- Result of the `io.Copy` of one response body into the temp file. -/
inductive CopyOutcome where
  /-- The whole body was copied. -/
  | ok (data : List Nat)
  /-- The copy failed after writing `written` bytes (`io.Copy` returns the
  byte count written before the error). -/
  | failed (written : List Nat)
deriving DecidableEq, Repr

/-- Outcome of one attempt, as decided by the environment. -/
inductive AttemptOutcome where
  /-- `http.NewRequest` fails. -/
  | reqError
  /-- `http.DefaultClient.Do` fails. -/
  | transportError
  /-- A response arrives with this status; on a good status its body is
  copied with outcome `body`. -/
  | response (status : Nat) (body : CopyOutcome)
deriving DecidableEq, Repr

/-- Observable result of one `downloadChunk` call: the returned error (if
any), the bytes appended to the chunk temp file across all attempts, and
the amounts passed to `atomic.AddInt64(&downloadedSize, ...)`, in order. -/
structure ChunkRunResult where
  err : Option String
  written : List Nat
  counterAdds : List Nat
deriving DecidableEq, Repr

/-- The status test of `downloadChunk`: only `206 StatusPartialContent` and
`200 StatusOK` proceed to the body copy. -/
def goodStatus (s : Nat) : Bool := s == 206 || s == 200

/-- The retry loop of `downloadChunk` over the prescribed attempt
outcomes. -/
def downloadChunkRun : List AttemptOutcome → ChunkRunResult
  | [] => ⟨some "retry 3 times still failed", [], []⟩
  | a :: rest =>
    match a with
    | .reqError =>
      if rest = [] then ⟨some "request creation failed", [], []⟩
      else downloadChunkRun rest
    | .transportError =>
      if rest = [] then ⟨some "transport error", [], []⟩
      else downloadChunkRun rest
    | .response status body =>
      if goodStatus status then
        match body with
        | .ok data => ⟨none, data, [data.length]⟩
        | .failed w =>
          if rest = [] then ⟨some "copy failed", w, []⟩
          else
            let r := downloadChunkRun rest
            ⟨r.err, w ++ r.written, r.counterAdds⟩
      else
        if rest = [] then ⟨some "invalid status code", [], []⟩
        else downloadChunkRun rest

/-- `downloadChunk` makes exactly 3 attempts (`for retry := 0; retry < 3`). -/
def downloadChunk (a0 a1 a2 : AttemptOutcome) : ChunkRunResult :=
  downloadChunkRun [a0, a1, a2]

/-- An attempt that fails without writing anything into the temp file: a
request-creation error, a transport error, or a response whose status is
neither 206 nor 200 (its body is closed without being copied). -/
def failsWithoutWrite : AttemptOutcome → Bool
  | .reqError => true
  | .transportError => true
  | .response status _ => !goodStatus status

/-! ### The shared first-error slot (lines 816-843)

The slot is `var downloadErr atomic.Value`; a permanently failed chunk task
executes `downloadErr.Store(err)`, and after the completion barrier the
caller returns `downloadErr.Load()`.  `atomic.Value.Store` is an
unconditional overwrite (there is no compare-and-swap), and the stores of
the concurrently failing tasks are totally ordered by the atomic; the slot
seen by the caller is the fold of `Store` over that order. -/

/-- `downloadErr.Store e` as used by a permanently failed chunk task:
an unconditional overwrite of the slot. -/
def downloadErrStore (_slot : Option String) (e : String) : Option String :=
  some e

/-- The slot contents after the permanent failures `failures` were recorded,
in that order, starting from the empty slot. -/
def recordFailures (failures : List String) : Option String :=
  failures.foldl downloadErrStore none

/-! ### Post-barrier phase of `DownloadFileByConcurrent` (lines 797-813,
merge and cleanup)

After `wg.Wait()`, the call returns the error slot if set; otherwise it
runs `mergeChunks` and returns its result.  The deferred cleanup closes and
removes every created temp file on every exit path.  The environment of the
merge is whether `os.Create` fails and, per chunk, whether the
`Seek`/`io.Copy` of that chunk fails (a failing chunk is modelled as
appending nothing, as a failing `Seek` does). -/

/-- The merge loop over `(tempContent, ioFails)` pairs, accumulating the
destination file's content; an I/O failure aborts, leaving the content
written so far in place. -/
def mergeChunksRun : List (List Nat × Bool) → List Nat → Option String × List Nat
  | [], dest => (none, dest)
  | (t, ioFails) :: rest, dest =>
    if ioFails then (some "merge io error", dest)
    else mergeChunksRun rest (dest ++ t)

/-- The whole merge step: `os.Create` produces an (empty) destination file,
then the chunks are appended in order; the error and the state of the
destination file (`none` = absent) afterwards. -/
def mergeChunksFs (createFails : Bool) (temps : List (List Nat × Bool)) :
    Option String × Option (List Nat) :=
  if createFails then (some "create output file failed", none)
  else
    let r := mergeChunksRun temps []
    (r.1, some r.2)

/-- The post-barrier phase of `DownloadFileByConcurrent`: given the error
slot after the barrier, the merge environment and the temp contents,
returns (call result, destination file state, all temp files closed and
removed).  The last component is `true` on every path: it is the deferred
cleanup loop installed before the temp files are created. -/
def downloadFinish (chunkErr : Option String) (createFails : Bool)
    (temps : List (List Nat × Bool)) : Option String × Option (List Nat) × Bool :=
  match chunkErr with
  | some e => (some e, none, true)
  | none =>
    let m := mergeChunksFs createFails temps
    (m.1, m.2, true)

/-! ## Lemmas: the backward search and the length field -/

theorem matchAt_drop (l pat : List Nat) (s i : Nat) :
    matchAt (l.drop s) pat i = matchAt l pat (s + i) := by
  simp [matchAt, List.drop_drop]

theorem matchAt_le {l pat : List Nat} {i : Nat} (hpat : pat ≠ [])
    (h : matchAt l pat i = true) : i + pat.length ≤ l.length := by
  have heq : (l.drop i).take pat.length = pat := by simpa [matchAt] using h
  have hlen := congrArg List.length heq
  simp only [List.length_take, List.length_drop] at hlen
  have hp : 0 < pat.length := List.length_pos.mpr hpat
  omega

theorem lastIndexAux_some {l pat : List Nat} :
    ∀ i k, lastIndexAux l pat i = some k →
      matchAt l pat k = true ∧ k ≤ i ∧
        ∀ j, k < j → j ≤ i → matchAt l pat j = false := by
  intro i
  induction i with
  | zero =>
    intro k h
    by_cases hm : matchAt l pat 0
    · simp only [lastIndexAux, hm, if_true, Option.some.injEq] at h
      subst h
      exact ⟨hm, Nat.le_refl 0,
        fun j hj1 hj2 => absurd (Nat.lt_of_lt_of_le hj1 hj2) (Nat.lt_irrefl 0)⟩
    · simp [lastIndexAux, hm] at h
  | succ n ih =>
    intro k h
    by_cases hm : matchAt l pat (n + 1)
    · simp only [lastIndexAux, hm, if_true, Option.some.injEq] at h
      subst h
      exact ⟨hm, Nat.le_refl _,
        fun j hj1 hj2 => absurd (Nat.lt_of_lt_of_le hj1 hj2) (Nat.lt_irrefl _)⟩
    · simp only [lastIndexAux, hm, if_false, Bool.false_eq_true] at h
      obtain ⟨h1, h2, h3⟩ := ih k h
      refine ⟨h1, by omega, fun j hj1 hj2 => ?_⟩
      rcases Nat.lt_or_ge j (n + 1) with hj | hj
      · exact h3 j hj1 (by omega)
      · have hje : j = n + 1 := by omega
        subst hje
        simpa using hm

theorem lastIndexAux_last {l pat : List Nat} {k : Nat}
    (hk : matchAt l pat k = true) (hmax : ∀ j, k < j → matchAt l pat j = false) :
    ∀ i, k ≤ i → lastIndexAux l pat i = some k := by
  intro i
  induction i with
  | zero =>
    intro h
    have hk0 : k = 0 := by omega
    subst hk0
    simp [lastIndexAux, hk]
  | succ n ih =>
    intro h
    rcases Nat.eq_or_lt_of_le h with he | hlt
    · subst he
      simp [lastIndexAux, hk]
    · have hf : matchAt l pat (n + 1) = false := hmax _ (by omega)
      simp only [lastIndexAux, hf, if_false, Bool.false_eq_true]
      exact ih (by omega)

theorem lastIndexOf_eq_some {l pat : List Nat} {k : Nat} (hpat : pat ≠ [])
    (hk : matchAt l pat k = true)
    (hmax : ∀ j, k < j → matchAt l pat j = false) :
    lastIndexOf l pat = some k := by
  have hle := matchAt_le hpat hk
  have hp : 0 < pat.length := List.length_pos.mpr hpat
  have h1 : pat.length ≤ l.length := by omega
  simp only [lastIndexOf, h1, if_true]
  exact lastIndexAux_last hk hmax _ (by omega)

theorem lastIndexOf_none_of {l pat : List Nat}
    (h : ∀ j, matchAt l pat j = false) : lastIndexOf l pat = none := by
  unfold lastIndexOf
  split
  · cases he : lastIndexAux l pat (l.length - pat.length) with
    | none => rfl
    | some k =>
      have hm := (lastIndexAux_some _ _ he).1
      rw [h k] at hm
      cases hm
  · rfl

theorem lastIndexOf_last {l pat : List Nat} {k : Nat} (hpat : pat ≠ [])
    (h : lastIndexOf l pat = some k) :
    matchAt l pat k = true ∧ ∀ j, matchAt l pat j = true → j ≤ k := by
  unfold lastIndexOf at h
  split at h
  case isTrue hlen =>
    obtain ⟨h1, h2, h3⟩ := lastIndexAux_some _ _ h
    refine ⟨h1, fun j hj => ?_⟩
    by_contra hjk
    have hkj : k < j := by omega
    have hle := matchAt_le hpat hj
    have hji : j ≤ l.length - pat.length := by
      have hp : 0 < pat.length := List.length_pos.mpr hpat
      omega
    have hfalse := h3 j hkj hji
    rw [hj] at hfalse
    cases hfalse
  case isFalse => cases h

theorem leWrite_length (n k : Nat) : (leWrite n k).length = k := by
  induction k generalizing n with
  | zero => simp [leWrite]
  | succ m ih => simp [leWrite, ih]

theorem leDecode_leWrite : ∀ (k n : Nat), n < 256 ^ k → leDecode (leWrite n k) = n := by
  intro k
  induction k with
  | zero =>
    intro n h
    simp only [pow_zero, Nat.lt_one_iff] at h
    simp [h, leWrite, leDecode]
  | succ m ih =>
    intro n h
    have hdiv : n / 256 < 256 ^ m := by
      apply Nat.div_lt_of_lt_mul
      calc n < 256 ^ (m + 1) := h
        _ = 256 * 256 ^ m := by ring
    simp only [leWrite, leDecode, ih _ hdiv]
    omega

theorem leUint64_leWrite (n : Nat) (rest : List Nat) (h : n < 2 ^ 64) :
    leUint64 (leWrite n 8 ++ rest) = n := by
  have h8 : (leWrite n 8).length = 8 := leWrite_length n 8
  unfold leUint64
  rw [List.take_left' h8]
  have h256 : (256 : Nat) ^ 8 = 2 ^ 64 := by norm_num
  exact leDecode_leWrite 8 n (by omega)

theorem magicTrailer_ne_nil : magicTrailer ≠ [] := by decide

theorem magicTrailer_length : magicTrailer.length = 8 := by decide

theorem mkSfx_length (base A junk : List Nat) :
    (mkSfx base A junk).length = base.length + A.length + 16 + junk.length := by
  simp [mkSfx, leWrite_length, magicTrailer]
  omega

/-- The real magic of a trailer-formatted image matches at its position. -/
theorem mkSfx_matchAt (base A junk : List Nat) :
    matchAt (mkSfx base A junk) magicTrailer (base.length + A.length + 8) = true := by
  have hassoc : mkSfx base A junk =
      (base ++ A ++ leWrite A.length 8) ++ (magicTrailer ++ junk) := by
    simp [mkSfx, List.append_assoc]
  have hlen : (base ++ A ++ leWrite A.length 8).length =
      base.length + A.length + 8 := by
    simp [leWrite_length]
    omega
  unfold matchAt
  rw [hassoc, List.drop_left' hlen, List.take_left]
  simp

/-- C3 amended, main computation: the locator on a trailer-formatted image.
Hypotheses: the archive length fits the signed 64-bit offset arithmetic, the
trailing junk leaves the whole 16-byte trailer inside the 64 KiB window
(`junk.length + 16 ≤ 64 KiB`), and the junk is unrelated to the trailer
format in the sense that the marker does not occur anywhere after the real
one. -/
theorem extractSelf_mkSfx (base A junk : List Nat)
    (hA : A.length < 2 ^ 63)
    (hJ : junk.length + trailerSize ≤ searchLimit)
    (hspur : ∀ j, base.length + A.length + 8 < j →
      matchAt (mkSfx base A junk) magicTrailer j = false) :
    extractSelf (mkSfx base A junk) = .ok A := by
  set file := mkSfx base A junk with hfile
  have hL : file.length = base.length + A.length + 16 + junk.length :=
    mkSfx_length base A junk
  have hJ' : junk.length + 16 ≤ 64 * 1024 := hJ
  set s := startOffsetOf file.length with hsdef
  have hs : s = file.length - min (64 * 1024) file.length := rfl
  -- the index of the real magic inside the window
  set idx := base.length + A.length + 8 - s with hidx
  have hs1 : s ≤ base.length + A.length := by omega
  have hs2 : s + idx = base.length + A.length + 8 := by omega
  have hs3 : 8 ≤ idx := by omega
  have hwin : tailWindow file = file.drop s := rfl
  -- the search finds exactly the real magic
  have hmatch : matchAt (tailWindow file) magicTrailer idx = true := by
    rw [hwin, matchAt_drop, hs2]
    exact mkSfx_matchAt base A junk
  have hmax : ∀ j, idx < j → matchAt (tailWindow file) magicTrailer j = false := by
    intro j hj
    rw [hwin, matchAt_drop]
    exact hspur _ (by omega)
  have hlast : lastIndexOf (tailWindow file) magicTrailer = some idx :=
    lastIndexOf_eq_some magicTrailer_ne_nil hmatch hmax
  -- unfold the locator
  have hsize : ¬ file.length < trailerSize := by
    unfold trailerSize
    omega
  rw [extractSelf, if_neg hsize, hlast]
  show (if idx < 8 then Except.error "magic found but header truncated"
    else extractAt file idx) = Except.ok A
  rw [if_neg (by omega : ¬ idx < 8)]
  -- the length field
  have hfield : (tailWindow file).drop (idx - 8) =
      leWrite A.length 8 ++ (magicTrailer ++ junk) := by
    rw [hwin, List.drop_drop]
    have h1 : s + (idx - 8) = base.length + A.length := by omega
    rw [h1]
    have hassoc : file = (base ++ A) ++ (leWrite A.length 8 ++ (magicTrailer ++ junk)) := by
      simp [hfile, mkSfx, List.append_assoc]
    rw [hassoc, List.drop_left' (by simp)]
  have hA64 : A.length < 2 ^ 64 := by
    have : (2 : Nat) ^ 63 < 2 ^ 64 := by norm_num
    omega
  rw [extractAt, hfield, leUint64_leWrite _ _ hA64]
  rw [if_pos hA]
  have hend : s + (idx - 8) = base.length + A.length := by omega
  rw [hend]
  have hstart : ((base.length + A.length : Nat) : Int) - (A.length : Int) =
      (base.length : Int) := by omega
  rw [hstart]
  rw [if_neg (by omega : ¬ (base.length : Int) < 0)]
  have htoNat : ((base.length : Nat) : Int).toNat = base.length := by omega
  rw [htoNat]
  rw [if_pos (by omega : base.length + A.length ≤ file.length)]
  have hdropB : file.drop base.length = A ++ (leWrite A.length 8 ++ (magicTrailer ++ junk)) := by
    have hassoc : file = base ++ (A ++ (leWrite A.length 8 ++ (magicTrailer ++ junk))) := by
      simp [hfile, mkSfx, List.append_assoc]
    rw [hassoc, List.drop_left' rfl]
  rw [hdropB, List.take_left' rfl]

theorem replicate_zero_ne_magic (m : Nat) :
    List.replicate m 0 ≠ magicTrailer := by
  cases m with
  | zero => simp [magicTrailer]
  | succ k => simp [List.replicate, magicTrailer]

theorem matchAt_replicate_zero (n j : Nat) :
    matchAt (List.replicate n 0) magicTrailer j = false := by
  unfold matchAt
  rw [List.drop_replicate, List.take_replicate]
  simp only [decide_eq_false_iff_not]
  exact replicate_zero_ne_magic _

/-- C3, counterexample: an archive of one byte embedded with no base image
and 64 KiB of zero bytes appended after the trailer.  The trailer then sits
entirely before the 64 KiB tail window, the backward search finds nothing,
and the locator fails instead of recovering the archive. -/
theorem extract_roundtrip_cex :
    (List.replicate 65536 0).length ≤ 64 * 1024 ∧
    extractSelf (mkSfx [] [42] (List.replicate 65536 0)) ≠ Except.ok [42] := by
  constructor
  · rw [List.length_replicate]
  · have hL : (mkSfx [] [42] (List.replicate 65536 0)).length = 65553 := by
      rw [mkSfx_length, List.length_replicate]
      decide
    have hwin : tailWindow (mkSfx [] [42] (List.replicate 65536 0)) =
        List.replicate 65536 0 := by
      unfold tailWindow
      rw [hL]
      have hso : startOffsetOf 65553 = 17 := by
        unfold startOffsetOf readSizeOf searchLimit
        omega
      rw [hso]
      have hassoc : mkSfx [] [42] (List.replicate 65536 0) =
          ([42] ++ leWrite ([42] : List Nat).length 8 ++ magicTrailer) ++
            List.replicate 65536 0 := by
        simp only [mkSfx, List.nil_append, List.append_assoc]
      rw [hassoc, List.drop_left'
        (by simp only [List.length_append, leWrite_length, magicTrailer_length]; decide)]
    have hnone :
        lastIndexOf (tailWindow (mkSfx [] [42] (List.replicate 65536 0)))
          magicTrailer = none := by
      rw [hwin]
      exact lastIndexOf_none_of (fun j => matchAt_replicate_zero 65536 j)
    have herr : extractSelf (mkSfx [] [42] (List.replicate 65536 0)) =
        Except.error "magic mismatch (signature not found)" := by
      rw [extractSelf,
        if_neg (show ¬ (mkSfx [] [42] (List.replicate 65536 0)).length < trailerSize by
          rw [hL]; decide),
        hnone]
    rw [herr]
    simp

/-- C3 witness: a concrete successful round trip through
`extractSelf_mkSfx`. -/
theorem extract_roundtrip_witness :
    ([9, 8, 7] : List Nat).length < 2 ^ 63 ∧
    ([] : List Nat).length + trailerSize ≤ searchLimit ∧
    extractSelf (mkSfx [1, 2] [9, 8, 7] []) = Except.ok [9, 8, 7] := by
  refine ⟨by decide, by decide, extractSelf_mkSfx [1, 2] [9, 8, 7] []
    (by decide) (by decide) ?_⟩
  intro j hj
  cases hm : matchAt (mkSfx [1, 2] [9, 8, 7] []) magicTrailer j with
  | false => rfl
  | true =>
    exfalso
    have hle := matchAt_le magicTrailer_ne_nil hm
    rw [mkSfx_length, magicTrailer_length] at hle
    simp at hle hj
    omega

/-- C8: the locator selects the last occurrence of the marker in the tail
window — any other occurrence lies at a smaller index — and when the window
contains no occurrence it fails with the magic-not-found error (in the
source, `bytes.LastIndex` returning `-1` makes `extractSelf` return
immediately, before any further read of the file). -/
theorem extract_lastMatch_spec (file : List Nat)
    (hsize : trailerSize ≤ file.length) :
    (∀ k, lastIndexOf (tailWindow file) magicTrailer = some k →
      matchAt (tailWindow file) magicTrailer k = true ∧
        ∀ j, matchAt (tailWindow file) magicTrailer j = true → j ≤ k) ∧
    ((∀ j, matchAt (tailWindow file) magicTrailer j = false) →
      extractSelf file = Except.error "magic mismatch (signature not found)") := by
  constructor
  · intro k hk
    exact lastIndexOf_last magicTrailer_ne_nil hk
  · intro hnone
    rw [extractSelf, if_neg (by unfold trailerSize at hsize ⊢; omega),
      lastIndexOf_none_of hnone]

/-- C8 witness: a 16-byte file made of the marker twice. -/
theorem extract_lastMatch_witness :
    trailerSize ≤ (magicTrailer ++ magicTrailer).length ∧
    ((∀ k, lastIndexOf (tailWindow (magicTrailer ++ magicTrailer)) magicTrailer = some k →
      matchAt (tailWindow (magicTrailer ++ magicTrailer)) magicTrailer k = true ∧
        ∀ j, matchAt (tailWindow (magicTrailer ++ magicTrailer)) magicTrailer j = true → j ≤ k) ∧
    ((∀ j, matchAt (tailWindow (magicTrailer ++ magicTrailer)) magicTrailer j = false) →
      extractSelf (magicTrailer ++ magicTrailer) =
        Except.error "magic mismatch (signature not found)")) :=
  ⟨by decide, extract_lastMatch_spec (magicTrailer ++ magicTrailer) (by decide)⟩

/-! ## Lemmas: the chunk plan -/

theorem calcChunksFuel_mem {fileSize chunkSize : Nat} (hc : 0 < chunkSize) :
    ∀ fuel start ch, ch ∈ calcChunksFuel fuel fileSize chunkSize start →
      start ≤ ch.start ∧ ch.start ≤ ch.endPos ∧ ch.endPos < fileSize := by
  intro fuel
  induction fuel with
  | zero =>
    intro s ch h
    simp [calcChunksFuel] at h
  | succ n ih =>
    intro s ch h
    by_cases hs : s < fileSize
    · simp only [calcChunksFuel, if_pos hs, List.mem_cons] at h
      rcases h with he | hm
      · subst he
        dsimp only
        by_cases hlast : s + chunkSize - 1 ≥ fileSize
        · simp only [if_pos hlast]
          omega
        · simp only [if_neg hlast]
          omega
      · have := ih (s + chunkSize) ch hm
        omega
    · simp [calcChunksFuel, hs] at h

theorem calcChunksFuel_countP {fileSize chunkSize : Nat} (hc : 0 < chunkSize) :
    ∀ fuel start b, fileSize - start ≤ fuel → start ≤ b → b < fileSize →
      (calcChunksFuel fuel fileSize chunkSize start).countP (covers b) = 1 := by
  intro fuel
  induction fuel with
  | zero =>
    intro s b hf hsb hbn
    exact absurd hbn (by omega)
  | succ n ih =>
    intro s b hf hsb hbn
    have hs : s < fileSize := by omega
    simp only [calcChunksFuel, if_pos hs]
    rw [List.countP_cons]
    set e := if s + chunkSize - 1 ≥ fileSize then fileSize - 1 else s + chunkSize - 1
      with he
    have he1 : e ≤ s + chunkSize - 1 := by
      rw [he]; split <;> omega
    have he2 : b ≤ e ∨ s + chunkSize ≤ b := by
      rw [he]; split <;> omega
    rcases he2 with hcov | hge
    · have hcov' : covers b ⟨s, e⟩ = true := by
        simp only [covers, decide_eq_true_eq]
        exact ⟨hsb, hcov⟩
      have h0 : (calcChunksFuel n fileSize chunkSize (s + chunkSize)).countP
          (covers b) = 0 := by
        rw [List.countP_eq_zero]
        intro ch hch
        have hm := calcChunksFuel_mem hc n (s + chunkSize) ch hch
        simp only [covers, decide_eq_true_eq]
        omega
      rw [h0, hcov']
      simp
    · have hncov : covers b ⟨s, e⟩ = false := by
        simp only [covers, decide_eq_false_iff_not]
        omega
      rw [hncov, ih (s + chunkSize) b (by omega) (by omega) hbn]
      simp

theorem calcChunksFuel_pairwise {fileSize chunkSize : Nat} (hc : 0 < chunkSize) :
    ∀ fuel start, (calcChunksFuel fuel fileSize chunkSize start).Pairwise
      (fun x y => x.start < y.start) := by
  intro fuel
  induction fuel with
  | zero =>
    intro s
    simp [calcChunksFuel]
  | succ n ih =>
    intro s
    by_cases hs : s < fileSize
    · simp only [calcChunksFuel, if_pos hs]
      rw [List.pairwise_cons]
      refine ⟨fun ch hch => ?_, ih (s + chunkSize)⟩
      have hm := calcChunksFuel_mem hc n (s + chunkSize) ch hch
      dsimp only
      omega
    · simp [calcChunksFuel, hs]

theorem calcChunksFuel_ne_nil {fileSize chunkSize : Nat} :
    ∀ fuel start, start < fileSize → fileSize - start ≤ fuel →
      calcChunksFuel fuel fileSize chunkSize start ≠ [] := by
  intro fuel
  cases fuel with
  | zero =>
    intro s h1 h2
    exact absurd h1 (by omega)
  | succ n =>
    intro s h1 h2
    simp [calcChunksFuel, h1]

theorem foldl_append_eq (l : List (List Nat)) :
    ∀ acc, List.foldl (fun acc f => acc ++ f) acc l =
      acc ++ List.foldl (fun acc f => acc ++ f) [] l := by
  induction l with
  | nil =>
    intro acc
    simp
  | cons x xs ih =>
    intro acc
    simp only [List.foldl_cons, List.nil_append]
    rw [ih (acc ++ x), ih x]
    simp [List.append_assoc]

theorem mergeChunks_cons (t : List Nat) (ts : List (List Nat)) :
    mergeChunks (t :: ts) = t ++ mergeChunks ts := by
  unfold mergeChunks
  simp only [List.foldl_cons, List.nil_append]
  exact foldl_append_eq ts t

theorem calcChunksFuel_merge {chunkSize : Nat} (hc : 0 < chunkSize)
    (orig : List Nat) :
    ∀ fuel start, orig.length - start ≤ fuel →
      mergeChunks ((calcChunksFuel fuel orig.length chunkSize start).map
        (chunkData orig)) = orig.drop start := by
  intro fuel
  induction fuel with
  | zero =>
    intro s hf
    have hs : orig.length ≤ s := by omega
    simp [calcChunksFuel, mergeChunks, List.drop_eq_nil_of_le hs]
  | succ n ih =>
    intro s hf
    by_cases hs : s < orig.length
    · simp only [calcChunksFuel, if_pos hs, List.map_cons]
      rw [mergeChunks_cons]
      by_cases hlast : s + chunkSize - 1 ≥ orig.length
      · simp only [if_pos hlast]
        have htail : calcChunksFuel n orig.length chunkSize (s + chunkSize) = [] := by
          cases n with
          | zero => rfl
          | succ m =>
            simp [calcChunksFuel, show ¬ s + chunkSize < orig.length by omega]
        rw [htail]
        simp only [List.map_nil]
        rw [show mergeChunks [] = [] from rfl, List.append_nil]
        unfold chunkData
        dsimp only
        rw [show orig.length - 1 + 1 - s = orig.length - s by omega]
        apply List.take_of_length_le
        rw [List.length_drop]
      · simp only [if_neg hlast]
        rw [ih (s + chunkSize) (by omega)]
        unfold chunkData
        dsimp only
        rw [show s + chunkSize - 1 + 1 - s = chunkSize by omega]
        rw [show orig.drop (s + chunkSize) = (orig.drop s).drop chunkSize by
          rw [List.drop_drop]]
        rw [List.take_append_drop]
    · simp only [calcChunksFuel, if_neg hs, List.map_nil]
      rw [show mergeChunks [] = [] from rfl]
      rw [List.drop_eq_nil_of_le (by omega : orig.length ≤ s)]

theorem chunkSizeOf_pos (fileSize numWorkers : Nat) :
    0 < chunkSizeOf fileSize numWorkers := by
  simp only [chunkSizeOf]
  by_cases h1 : fileSize % numWorkers ≠ 0
  · rw [if_pos h1]
    split <;> omega
  · rw [if_neg h1]
    split <;> omega

theorem chunkSizeOf_eq_ceil (fileSize numWorkers : Nat)
    (hf : 0 < fileSize) (hw : 0 < numWorkers) :
    chunkSizeOf fileSize numWorkers = (fileSize + numWorkers - 1) / numWorkers := by
  obtain ⟨q, r, hrw, rfl⟩ : ∃ q r, r < numWorkers ∧ fileSize = numWorkers * q + r :=
    ⟨fileSize / numWorkers, fileSize % numWorkers, Nat.mod_lt _ hw,
      (Nat.div_add_mod fileSize numWorkers).symm⟩
  have hqr : (numWorkers * q + r) / numWorkers = q + r / numWorkers :=
    Nat.mul_add_div hw q r
  have hrw0 : r / numWorkers = 0 := Nat.div_eq_of_lt hrw
  have hmod : (numWorkers * q + r) % numWorkers = r % numWorkers :=
    Nat.mul_add_mod numWorkers q r
  have hrr : r % numWorkers = r := Nat.mod_eq_of_lt hrw
  simp only [chunkSizeOf, hmod, hrr, hqr, hrw0, Nat.add_zero]
  by_cases h1 : r = 0
  · subst h1
    have hq : 0 < q := by
      rcases Nat.eq_zero_or_pos q with h0 | h0
      · subst h0
        simp at hf
      · exact h0
    rw [if_neg (show ¬ (0 : Nat) ≠ 0 by omega), if_neg (by omega : ¬ q ≤ 0)]
    rw [show numWorkers * q + 0 + numWorkers - 1 = numWorkers * q + (numWorkers - 1) by omega]
    rw [Nat.mul_add_div hw, Nat.div_eq_of_lt (by omega), Nat.add_zero]
  · rw [if_pos h1, if_neg (by omega : ¬ q + 1 ≤ 0)]
    rw [show numWorkers * q + r + numWorkers - 1 = numWorkers * (q + 1) + (r - 1) by
      have hm : numWorkers * (q + 1) = numWorkers * q + numWorkers := by ring
      omega]
    rw [Nat.mul_add_div hw, Nat.div_eq_of_lt (by omega), Nat.add_zero]

/-- C1: for positive `fileSize` and `workerCount`, the chunk plan of
`DownloadFileByConcurrent` is non-empty, its chunk size is
`ceil(fileSize / workerCount)`, its inclusive ranges cover every byte of
`[0, fileSize)` exactly once and stay below `fileSize`, its starts strictly
increase with list position, and the `fileSize = 1000`, `workerCount = 4`
plan is `[0,249],[250,499],[500,749],[750,999]`. -/
theorem chunkPlan_partition (fileSize workerCount : Nat)
    (hf : 0 < fileSize) (hw : 0 < workerCount) :
    downloadPlan fileSize workerCount ≠ [] ∧
    chunkSizeOf fileSize workerCount = (fileSize + workerCount - 1) / workerCount ∧
    (∀ b, b < fileSize →
      (downloadPlan fileSize workerCount).countP (covers b) = 1) ∧
    (∀ ch ∈ downloadPlan fileSize workerCount, ch.endPos < fileSize) ∧
    List.Pairwise (fun x y => x.start < y.start)
      (downloadPlan fileSize workerCount) ∧
    downloadPlan 1000 4 = [⟨0, 249⟩, ⟨250, 499⟩, ⟨500, 749⟩, ⟨750, 999⟩] := by
  have hc := chunkSizeOf_pos fileSize workerCount
  simp only [downloadPlan, calculateChunks]
  refine ⟨?_, chunkSizeOf_eq_ceil _ _ hf hw, ?_, ?_, ?_, by decide⟩
  · exact calcChunksFuel_ne_nil _ 0 hf (by omega)
  · intro b hb
    exact calcChunksFuel_countP hc _ 0 b (by omega) (Nat.zero_le b) hb
  · intro ch hch
    exact (calcChunksFuel_mem hc _ 0 ch hch).2.2
  · exact calcChunksFuel_pairwise hc _ 0

/-- C1 witness: the theorem instantiated at `fileSize = 1000`,
`workerCount = 4`. -/
theorem chunkPlan_partition_witness :
    (0 < 1000 ∧ 0 < 4) ∧
    (downloadPlan 1000 4 ≠ [] ∧
    chunkSizeOf 1000 4 = (1000 + 4 - 1) / 4 ∧
    (∀ b, b < 1000 → (downloadPlan 1000 4).countP (covers b) = 1) ∧
    (∀ ch ∈ downloadPlan 1000 4, ch.endPos < 1000) ∧
    List.Pairwise (fun x y => x.start < y.start) (downloadPlan 1000 4) ∧
    downloadPlan 1000 4 = [⟨0, 249⟩, ⟨250, 499⟩, ⟨500, 749⟩, ⟨750, 999⟩]) :=
  ⟨⟨by decide, by decide⟩, chunkPlan_partition 1000 4 (by decide) (by decide)⟩

/-- C2: merging the chunk files of any plan over the resource, in index
order, reconstructs the resource exactly; and for the two-chunk plan over
`[0, 1]`, merging the same files in the reversed order does not. -/
theorem mergeChunks_reconstructs (orig : List Nat) (chunkSize : Nat)
    (hc : 0 < chunkSize) :
    mergeChunks ((calculateChunks orig.length chunkSize).map (chunkData orig))
      = orig ∧
    mergeChunks (((calculateChunks 2 1).map (chunkData [0, 1])).reverse)
      ≠ [0, 1] := by
  constructor
  · have h := calcChunksFuel_merge hc orig orig.length 0 (by omega)
    simpa [calculateChunks] using h
  · decide

/-- C2 witness: a concrete five-byte resource split into chunks of two. -/
theorem mergeChunks_reconstructs_witness :
    0 < 2 ∧
    (mergeChunks ((calculateChunks ([3, 1, 4, 1, 5] : List Nat).length 2).map
      (chunkData [3, 1, 4, 1, 5])) = [3, 1, 4, 1, 5] ∧
    mergeChunks (((calculateChunks 2 1).map (chunkData [0, 1])).reverse)
      ≠ [0, 1]) :=
  ⟨by decide, mergeChunks_reconstructs [3, 1, 4, 1, 5] 2 (by decide)⟩

/-- C7: the effective concurrency of `DownloadFileByConcurrent` — the
capacity of its semaphore — is the chunk count when the requested worker
count exceeds it, and the requested worker count otherwise. -/
theorem actualWorkers_spec (fileSize workerCount : Nat)
    (_hf : 0 < fileSize) (_hw : 0 < workerCount) :
    ((downloadPlan fileSize workerCount).length < workerCount →
      actualWorkersOf fileSize workerCount =
        (downloadPlan fileSize workerCount).length) ∧
    (workerCount ≤ (downloadPlan fileSize workerCount).length →
      actualWorkersOf fileSize workerCount = workerCount) := by
  unfold actualWorkersOf
  constructor
  · intro h
    rw [if_pos h]
  · intro h
    rw [if_neg (by omega)]

/-- C7 witness: a 2-byte file with 5 requested workers yields 2 chunks and
effective concurrency 2. -/
theorem actualWorkers_spec_witness :
    (0 < 2 ∧ 0 < 5) ∧
    (((downloadPlan 2 5).length < 5 →
      actualWorkersOf 2 5 = (downloadPlan 2 5).length) ∧
    (5 ≤ (downloadPlan 2 5).length → actualWorkersOf 2 5 = 5)) ∧
    (downloadPlan 2 5).length = 2 ∧ actualWorkersOf 2 5 = 2 :=
  ⟨⟨by decide, by decide⟩, actualWorkers_spec 2 5 (by decide) (by decide),
    by decide, by decide⟩

/-! ## The error slot, the retry loop and the merge/cleanup phase -/

theorem foldl_store_getLast (l : List String) :
    ∀ (init : Option String) (a : String),
      List.foldl downloadErrStore init (a :: l) = (a :: l).getLast? := by
  induction l with
  | nil =>
    intro init a
    rfl
  | cons b bs ih =>
    intro init a
    rw [List.getLast?_cons_cons, ← ih (downloadErrStore init a) b]
    simp only [List.foldl_cons]

/-- C4, counterexample: two chunks record permanent failures, in order; the
slot afterwards holds the second failure, not the first — `atomic.Value.Store`
overwrites, so a later failure does change an occupied slot. -/
theorem errorSlot_firstWins_cex :
    recordFailures ["chunk 0 failed", "chunk 1 failed"] = some "chunk 1 failed" ∧
    recordFailures ["chunk 0 failed", "chunk 1 failed"] ≠ some "chunk 0 failed" :=
  ⟨rfl, by decide⟩

/-- C4 amended: the first-error slot has last-write-wins semantics — after
any sequence of recorded permanent failures the slot (and hence the error
returned to the caller after the barrier) holds the most recently recorded
failure, and is empty only when no failure was recorded. -/
theorem errorSlot_lastWins (failures : List String) :
    recordFailures failures = failures.getLast? := by
  cases failures with
  | nil => rfl
  | cons a l => exact foldl_store_getLast l none a

/-- C5, counterexample: the chunk phase succeeds, the merge copies chunk 0
and then fails on chunk 1.  The call returns an error, yet the destination
file exists and holds the partial content `[1]` — contradicting the claim
that an erroring call leaves no partial destination file in place. -/
theorem downloadFinish_atomicity_cex :
    (downloadFinish none false [([1], false), ([2], true)]).1 =
      some "merge io error" ∧
    (downloadFinish none false [([1], false), ([2], true)]).2.1 = some [1] ∧
    (some [1] : Option (List Nat)) ≠ none ∧ ([1] : List Nat) ≠ [1, 2] :=
  ⟨rfl, rfl, by decide, by decide⟩

theorem mergeChunksRun_ok (contents : List (List Nat)) :
    ∀ dest, mergeChunksRun (contents.map (fun t => (t, false))) dest =
      (none, List.foldl (fun acc f => acc ++ f) dest contents) := by
  induction contents with
  | nil =>
    intro dest
    rfl
  | cons t ts ih =>
    intro dest
    simp only [List.map_cons, mergeChunksRun, Bool.false_eq_true, if_false,
      List.foldl_cons]
    exact ih (dest ++ t)

/-- C5 amended: when a chunk permanently failed before the merge, that error
is returned, the destination file is not produced, and all temp files are
closed and removed; the temp files are closed and removed on every exit
path; and a failure-free merge produces the destination with the
concatenated chunk contents.  (When the merge itself fails, the error is
returned and the temps are removed, but — per the counterexample — a
partially written destination file may remain.) -/
theorem downloadFinish_amended (e : String) (createFails : Bool)
    (temps : List (List Nat × Bool)) (chunkErr : Option String)
    (contents : List (List Nat)) :
    downloadFinish (some e) createFails temps = (some e, none, true) ∧
    (downloadFinish chunkErr createFails temps).2.2 = true ∧
    downloadFinish none false (contents.map (fun t => (t, false))) =
      (none, some (mergeChunks contents), true) := by
  refine ⟨rfl, ?_, ?_⟩
  · cases chunkErr with
    | none => rfl
    | some e2 => rfl
  · simp only [downloadFinish, mergeChunksFs, Bool.false_eq_true, if_false,
      mergeChunksRun_ok contents []]
    rfl

theorem downloadChunkRun_skip (a : AttemptOutcome) (rest : List AttemptOutcome)
    (h : failsWithoutWrite a = true) (hne : rest ≠ []) :
    downloadChunkRun (a :: rest) = downloadChunkRun rest := by
  cases a with
  | reqError => simp [downloadChunkRun, hne]
  | transportError => simp [downloadChunkRun, hne]
  | response s body =>
    have hg : goodStatus s = false := by
      simpa [failsWithoutWrite] using h
    simp [downloadChunkRun, hg, hne]

theorem downloadChunkRun_success (s : Nat) (data : List Nat)
    (rest : List AttemptOutcome) (hs : goodStatus s = true) :
    downloadChunkRun (.response s (.ok data) :: rest) =
      ⟨none, data, [data.length]⟩ := by
  simp [downloadChunkRun, hs]

theorem downloadChunkRun_failedCopy (s : Nat) (w : List Nat)
    (rest : List AttemptOutcome) (hs : goodStatus s = true) (hne : rest ≠ []) :
    downloadChunkRun (.response s (.failed w) :: rest) =
      ⟨(downloadChunkRun rest).err, w ++ (downloadChunkRun rest).written,
        (downloadChunkRun rest).counterAdds⟩ := by
  simp [downloadChunkRun, hs, hne]

/-- C6, counterexample: the first attempt gets a good status but its body
copy fails after writing the byte `7`; the second attempt is a transport
error; the third succeeds with the range bytes `[1, 2]`.  The call returns
success and adds the byte count once, but the temp file holds `[7, 1, 2]`,
not the range's bytes — so its contribution to the merged file is not the
range exactly once. -/
theorem downloadChunk_retry_cex :
    (downloadChunk (.response 206 (.failed [7])) .transportError
      (.response 206 (.ok [1, 2]))).err = none ∧
    (downloadChunk (.response 206 (.failed [7])) .transportError
      (.response 206 (.ok [1, 2]))).counterAdds = [([1, 2] : List Nat).length] ∧
    (downloadChunk (.response 206 (.failed [7])) .transportError
      (.response 206 (.ok [1, 2]))).written ≠ [1, 2] :=
  ⟨rfl, rfl, by decide⟩

/-- C6 amended: for a chunk whose first two attempts fail *without writing
into the temp file* (request error, transport error, or a bad status, whose
body is closed uncopied) and whose third attempt succeeds with the range's
bytes, `downloadChunk` returns success, the byte count is added to the
shared transferred counter exactly once, and the temp file holds exactly
the range's bytes, so the merge appends them to the destination exactly
once. -/
theorem downloadChunk_retry_amended (a0 a1 : AttemptOutcome) (data : List Nat)
    (h0 : failsWithoutWrite a0 = true) (h1 : failsWithoutWrite a1 = true) :
    downloadChunk a0 a1 (.response 206 (.ok data)) =
      ⟨none, data, [data.length]⟩ := by
  unfold downloadChunk
  rw [downloadChunkRun_skip a0 _ h0 (by simp),
    downloadChunkRun_skip a1 _ h1 (by simp),
    downloadChunkRun_success 206 data [] rfl]

/-- C6 witness: two transport-style failures, then success. -/
theorem downloadChunk_retry_witness :
    failsWithoutWrite .transportError = true ∧
    failsWithoutWrite .reqError = true ∧
    downloadChunk .transportError .reqError (.response 206 (.ok [5, 6])) =
      ⟨none, [5, 6], [([5, 6] : List Nat).length]⟩ :=
  ⟨by decide, by decide,
    downloadChunk_retry_amended .transportError .reqError [5, 6]
      (by decide) (by decide)⟩

/-- C10: the temp file is never truncated or rewound between attempts — an
attempt that copies `w` and fails leaves `w` in the file, a later
successful attempt appends its full range `data` after it, the call still
succeeds and counts `data` once, and for nonempty `w` the temp file ends up
longer than the range itself. -/
theorem downloadChunk_noTruncate (s0 s1 : Nat) (w data : List Nat)
    (a2 : AttemptOutcome) (h0 : goodStatus s0 = true)
    (h1 : goodStatus s1 = true) :
    downloadChunk (.response s0 (.failed w)) (.response s1 (.ok data)) a2 =
      ⟨none, w ++ data, [data.length]⟩ ∧
    (w ≠ [] → data.length < (w ++ data).length) := by
  constructor
  · unfold downloadChunk
    rw [downloadChunkRun_failedCopy s0 w _ h0 (by simp),
      downloadChunkRun_success s1 data [a2] h1]
  · intro hw
    have hp : 0 < w.length := List.length_pos.mpr hw
    rw [List.length_append]
    omega

/-- C10 witness. -/
theorem downloadChunk_noTruncate_witness :
    goodStatus 200 = true ∧ goodStatus 206 = true ∧
    (downloadChunk (.response 200 (.failed [9])) (.response 206 (.ok [1, 2, 3]))
        .reqError = ⟨none, [9] ++ [1, 2, 3], [([1, 2, 3] : List Nat).length]⟩ ∧
      (([9] : List Nat) ≠ [] →
        ([1, 2, 3] : List Nat).length < (([9] : List Nat) ++ [1, 2, 3]).length)) :=
  ⟨by decide, by decide,
    downloadChunk_noTruncate 200 206 [9] [1, 2, 3] .reqError
      (by decide) (by decide)⟩

/-- C9: the unpack loop materializes regular files with their stored name,
mode and data, keeps directories as `name ++ "/"` markers with no data,
skips every other entry kind, ends normally at end of stream, and aborts
with an error — returning no partial result — on a decode error or a
failing body copy anywhere in the stream. -/
theorem untar_spec (events : List TarEvent)
    (hclean : ∀ e ∈ events, tarEventOk e = true) :
    untarGzToMemory events = .ok (events.filterMap entryResult) ∧
    (∀ rest, untarGzToMemory (events ++ TarEvent.corrupt :: rest) =
      .error "tar decode error") ∧
    (∀ name mode rest,
      untarGzToMemory (events ++ TarEvent.reg name mode none :: rest) =
        .error "copy entry body failed") := by
  induction events with
  | nil => exact ⟨rfl, fun rest => rfl, fun name mode rest => rfl⟩
  | cons e es ih =>
    have he := hclean e (List.mem_cons_self e es)
    have hes : ∀ x ∈ es, tarEventOk x = true :=
      fun x hx => hclean x (List.mem_cons_of_mem e hx)
    obtain ⟨ih1, ih2, ih3⟩ := ih hes
    cases e with
    | reg n m body =>
      cases body with
      | none => simp [tarEventOk] at he
      | some d =>
        refine ⟨?_, ?_, ?_⟩
        · simp [untarGzToMemory, ih1, List.filterMap_cons, entryResult, Except.map]
        · intro rest
          simp [List.cons_append, untarGzToMemory, ih2 rest, Except.map]
        · intro n2 m2 rest
          simp [List.cons_append, untarGzToMemory, ih3 n2 m2 rest, Except.map]
    | dir n m =>
      refine ⟨?_, ?_, ?_⟩
      · simp [untarGzToMemory, ih1, List.filterMap_cons, entryResult, Except.map]
      · intro rest
        simp [List.cons_append, untarGzToMemory, ih2 rest, Except.map]
      · intro n2 m2 rest
        simp [List.cons_append, untarGzToMemory, ih3 n2 m2 rest, Except.map]
    | other =>
      refine ⟨?_, ?_, ?_⟩
      · simp [untarGzToMemory, ih1, List.filterMap_cons, entryResult, Except.map]
      · intro rest
        simp [List.cons_append, untarGzToMemory, ih2 rest, Except.map]
      · intro n2 m2 rest
        simp [List.cons_append, untarGzToMemory, ih3 n2 m2 rest, Except.map]
    | corrupt => simp [tarEventOk] at he

/-- C9 witness: a stream with one regular file, one directory and one
skipped entry. -/
theorem untar_spec_witness :
    (∀ e ∈ ([.reg "bin/app" 493 (some [1, 2]), .dir "cfg" 493, .other] :
        List TarEvent), tarEventOk e = true) ∧
    (untarGzToMemory [.reg "bin/app" 493 (some [1, 2]), .dir "cfg" 493, .other] =
      .ok (([.reg "bin/app" 493 (some [1, 2]), .dir "cfg" 493, .other] :
        List TarEvent).filterMap entryResult) ∧
    (∀ rest, untarGzToMemory
      ([.reg "bin/app" 493 (some [1, 2]), .dir "cfg" 493, .other] ++
        TarEvent.corrupt :: rest) = .error "tar decode error") ∧
    (∀ name mode rest, untarGzToMemory
      ([.reg "bin/app" 493 (some [1, 2]), .dir "cfg" 493, .other] ++
        TarEvent.reg name mode none :: rest) = .error "copy entry body failed")) :=
  ⟨by decide, untar_spec [.reg "bin/app" 493 (some [1, 2]), .dir "cfg" 493, .other]
    (by decide)⟩

end ExeInstaller
